import Mathlib

/-!
# Verification of `rnavigate.analysis.auroc.WindowedAUROC.__init__`

A shallow embedding, over exact rationals, of the windowed-AUROC
computation in `src/rnavigate/analysis/auroc.py`.  Floating-point values
are modelled as `ℚ`; the `np.nan` missing-value sentinel is modelled as
`Option.none`.  Python / numpy operations that can raise are modelled in
an `Except PyErr` monad:

* `assert cond, msg` raising `AssertionError` → `PyErr.assertionFail msg`;
* numpy boolean-mask indexing with a mask whose length differs from the
  indexed array, and out-of-range element assignment → `PyErr.indexFail`.

The sklearn calls `roc_curve(y, scores)` and `auc(x, y)` are modelled by
`roc_curve` and `auc` below: thresholds are the distinct score values in
descending order, each giving the point
`(FP(t)/#neg, TP(t)/#pos)` with `TP(t) = #{positives with score ≥ t}`,
preceded by the extra point `(0, 0)` that sklearn inserts; `auc` is
trapezoidal integration (`np.trapz`).  Two deliberate modelling notes:
sklearn's `drop_intermediate=True` only removes collinear interior ROC
points, which does not change the trapezoidal area, so it is not
modelled; and sklearn `auc`'s direction detection always resolves to
`+1` here because the false-positive-rate list produced by descending
thresholds is non-decreasing.

Note the source line `tpr, fpr, _ = roc_curve(y, scores)` binds the
variable named `tpr` to the *first* component of `roc_curve`'s result
(which is the false-positive-rate array) and `fpr` to the second; the
subsequent `auc(tpr, fpr)` therefore integrates true-positive rate over
false-positive rate, the standard AUROC, and the embedding reproduces
exactly that composition.

The plotting path (`show=True` → `self.plot_auroc`) is rendering-only
and outside the scope of every claim; the embedding models the numeric
state computed by `__init__`.
-/

/-- Errors the modelled Python code can raise. -/
inductive PyErr where
  | assertionFail (msg : String)
  | indexFail
deriving Repr, DecidableEq

/-- A reactivity signal: per-position value, `none` for `np.nan`. -/
abbrev Signal := List (Option ℚ)

/-- The `sample.data["ct"]` object: attributes used by `__init__`. -/
structure CtData where
  sequence : String
  length : ℕ
  ct : List ℕ
deriving Repr, DecidableEq

/-- The `sample.data["profile"]` object: `data["Norm_profile"].values`. -/
structure ProfileData where
  norm_profile : Signal
deriving Repr, DecidableEq

/-- An `rnavigate.Sample`: the `data` dictionary entries `__init__` reads.
`none` models the key being absent from `sample.data.keys()`. -/
structure Sample where
  profile : Option ProfileData
  ct : Option CtData
deriving Repr, DecidableEq

/-- The numeric state stored on `self` by `WindowedAUROC.__init__`. -/
structure AurocResult where
  sequence : String
  window : ℤ
  nt_length : ℕ
  auroc : List (Option ℚ)
  auroc_median : Option ℚ
deriving Repr, DecidableEq

/-- Clamp a Python slice bound into `[0, n]`: negative indices count from
the end, then the result is clamped (CPython `slice.indices`). -/
def pyBound (n : ℕ) (i : ℤ) : ℕ :=
  let j := if i < 0 then i + n else i
  if j < 0 then 0 else min j.toNat n

/-- Python slice `xs[a:b]` (step 1). -/
def pySlice (xs : List α) (a b : ℤ) : List α :=
  (xs.take (pyBound xs.length b)).drop (pyBound xs.length a)

/-- Python element assignment `xs[i] = v`: negative indices wrap once;
out of range raises `IndexError`. -/
def pySet (xs : List α) (i : ℤ) (v : α) : Except PyErr (List α) :=
  let j := if i < 0 then i + xs.length else i
  if 0 ≤ j ∧ j < xs.length then .ok (xs.set j.toNat v) else .error .indexFail

/-- numpy boolean-mask indexing `xs[mask]`: the mask length must equal
the array length, otherwise `IndexError`. -/
def maskSelect (mask : List Bool) (xs : List α) : Except PyErr (List α) :=
  if mask.length = xs.length then
    .ok ((mask.zip xs).filterMap (fun p => if p.1 then some p.2 else none))
  else .error .indexFail

/-- `range a b` over integers: `[a, a+1, ..., b-1]`. -/
def intRange (a b : ℤ) : List ℤ :=
  (List.range (b - a).toNat).map (fun k : ℕ => a + (k : ℤ))

/-- Insert into a descending-sorted list, keeping it descending. -/
def insertDesc (a : ℚ) : List ℚ → List ℚ
  | [] => [a]
  | b :: bs => if b ≤ a then a :: b :: bs else b :: insertDesc a bs

/-- Sort into non-increasing order. -/
def sortDesc (xs : List ℚ) : List ℚ := xs.foldr insertDesc []

/-- Remove adjacent duplicates (on a sorted list: deduplication). -/
def dedupAdj : List ℚ → List ℚ
  | [] => []
  | [a] => [a]
  | a :: b :: rest =>
    if a = b then dedupAdj (b :: rest) else a :: dedupAdj (b :: rest)

/-- The distinct candidate thresholds, in descending order, that
`sklearn.metrics.roc_curve` sweeps: the distinct score values. -/
def thresholds (scores : List ℚ) : List ℚ := dedupAdj (sortDesc scores)

/-- True positives at threshold `t`: positives with score `≥ t`. -/
def tpCount (y : List Bool) (scores : List ℚ) (t : ℚ) : ℕ :=
  ((y.zip scores).filter (fun p => p.1 && decide (t ≤ p.2))).length

/-- False positives at threshold `t`: negatives with score `≥ t`. -/
def fpCount (y : List Bool) (scores : List ℚ) (t : ℚ) : ℕ :=
  ((y.zip scores).filter (fun p => !p.1 && decide (t ≤ p.2))).length

/-- `sklearn.metrics.roc_curve(y, scores)` modelled as the pair
`(fpr, tpr)` of rate lists (the threshold list itself is discarded by
the caller).  The leading `(0, 0)` point sklearn inserts is the leading
`0` of each list. -/
def roc_curve (y : List Bool) (scores : List ℚ) : List ℚ × List ℚ :=
  let pos : ℕ := y.count true
  let neg : ℕ := y.count false
  let ts := thresholds scores
  (0 :: ts.map (fun t => (fpCount y scores t : ℚ) / neg),
   0 :: ts.map (fun t => (tpCount y scores t : ℚ) / pos))

/-- Trapezoid sum over a list of `(x, y)` points. -/
def trapzAux : List (ℚ × ℚ) → ℚ
  | p :: q :: rest => (q.1 - p.1) * (p.2 + q.2) / 2 + trapzAux (q :: rest)
  | _ => 0

/-- `sklearn.metrics.auc(x, y)`: trapezoidal area (`np.trapz(y, x)`);
the direction factor is `+1` for the non-decreasing `x` produced by
`roc_curve`. -/
def auc (x y : List ℚ) : ℚ := trapzAux (x.zip y)

/-- One iteration of the window loop in `__init__`, for center `i`:

```python
win_profile = profile[i-pad:i+pad+1]
win_ct = ct[i-pad:i+pad+1]
valid = ~np.isnan(win_profile)
y = win_ct[valid] == 0
scores = win_profile[valid]
if (sum(y) < 10) or (sum(~y) < 10):
    continue                       # modelled as `.ok none`
tpr, fpr, _ = roc_curve(y, scores)
self.auroc[i] = auc(tpr, fpr)      # modelled as `.ok (some v)`
```
-/
def windowStep (profile : Signal) (ct : List ℕ) (pad i : ℤ) :
    Except PyErr (Option ℚ) :=
  let win_profile := pySlice profile (i - pad) (i + pad + 1)
  let win_ct := pySlice ct (i - pad) (i + pad + 1)
  let valid := win_profile.map Option.isSome
  match maskSelect valid win_ct, maskSelect valid win_profile with
  | .ok yv, .ok scoresv =>
    let y := yv.map (fun c => c == 0)
    let scores := scoresv.filterMap id
    if y.count true < 10 ∨ y.count false < 10 then .ok none
    else
      let pr := roc_curve y scores
      .ok (some (auc pr.1 pr.2))
  | .error e, _ => .error e
  | _, .error e => .error e

/-- Iterate the window loop over the given list of center indices,
threading the `self.auroc` array: a skipped window (`continue`) leaves
the array unchanged; a computed one is stored at index `i`. -/
def aurocFold (profile : Signal) (ct : List ℕ) (pad : ℤ) :
    List ℤ → List (Option ℚ) → Except PyErr (List (Option ℚ))
  | [], arr => .ok arr
  | i :: rest, arr =>
    match windowStep profile ct pad i with
    | .ok none => aurocFold profile ct pad rest arr
    | .ok (some v) =>
      match pySet arr i (some v) with
      | .ok arr' => aurocFold profile ct pad rest arr'
      | .error e => .error e
    | .error e => .error e

/-- The window loop of `__init__`: starting from
`self.auroc = np.full(len(profile), np.nan)`, iterate
`for i in range(pad, len(profile)-pad)`, storing each computed window
AUROC at index `i`. -/
def aurocLoop (profile : Signal) (ct : List ℕ) (pad : ℤ) :
    Except PyErr (List (Option ℚ)) :=
  aurocFold profile ct pad (intRange pad ((profile.length : ℤ) - pad))
    (List.replicate profile.length none)

/-- Insert into an ascending-sorted list, keeping it ascending. -/
def insertAsc (a : ℚ) : List ℚ → List ℚ
  | [] => [a]
  | b :: bs => if a ≤ b then a :: b :: bs else b :: insertAsc a bs

/-- Sort into non-decreasing order (numpy's sort, as used by median). -/
def sortAsc (xs : List ℚ) : List ℚ := xs.foldr insertAsc []

/-- `np.median` of a non-empty list: mean of the two middle order
statistics (equal to the single middle one for odd length). -/
def npmedian (xs : List ℚ) : ℚ :=
  let s := sortAsc xs
  let n := s.length
  (s.getD ((n - 1) / 2) 0 + s.getD (n / 2) 0) / 2

/-- `np.nanmedian`: the median of the non-`nan` entries; `nan` (here
`none`) when every entry is `nan`. -/
def nanmedian (arr : List (Option ℚ)) : Option ℚ :=
  let xs := arr.filterMap id
  if xs = [] then none else some (npmedian xs)

/-- `WindowedAUROC.__init__(sample, pad, ...)`, the numeric part:

```python
for data in ["profile", "ct"]:
    assert data in sample.data.keys(), f"Sample missing {data} data"
self.sequence = self.sample.data["ct"].sequence
self.window = pad * 2 + 1
self.nt_length = sample.data["ct"].length
profile = sample.data["profile"].data["Norm_profile"].values
ct = sample.data["ct"].ct
self.auroc = np.full(len(profile), np.nan)
for i in range(pad, len(profile)-pad):
    ...                                    # aurocLoop
self.auroc_median = np.nanmedian(self.auroc)
```
-/
def windowedAUROC (sample : Sample) (pad : ℤ) : Except PyErr AurocResult :=
  match sample.profile with
  | none => .error (.assertionFail "Sample missing profile data")
  | some profileData =>
    match sample.ct with
    | none => .error (.assertionFail "Sample missing ct data")
    | some ctData =>
      let profile := profileData.norm_profile
      let ct := ctData.ct
      match aurocLoop profile ct pad with
      | .error e => .error e
      | .ok arr =>
        .ok { sequence := ctData.sequence
              window := pad * 2 + 1
              nt_length := ctData.length
              auroc := arr
              auroc_median := nanmedian arr }

/-- The window contents after removing missing-signal positions, as
`(base-pair-table entry, signal value)` pairs: a position survives
exactly when its signal value is present, and its label and value are
kept or dropped together. -/
def windowValid (profile : Signal) (ct : List ℕ) (pad i : ℤ) :
    List (ℕ × ℚ) :=
  ((pySlice ct (i - pad) (i + pad + 1)).zip
      (pySlice profile (i - pad) (i + pad + 1))).filterMap
    (fun p => p.2.map (fun v => (p.1, v)))

/-- The pure value of one loop iteration when no indexing error occurs
(lengths of the two window slices agree): `none` for a skipped window,
`some v` for a stored AUROC `v`. -/
def stepVal (profile : Signal) (ct : List ℕ) (pad i : ℤ) : Option ℚ :=
  let wv := windowValid profile ct pad i
  let y := wv.map (fun p => p.1 == 0)
  let scores := wv.map (fun p => p.2)
  if y.count true < 10 ∨ y.count false < 10 then none
  else some (auc (roc_curve y scores).1 (roc_curve y scores).2)

/-- Relation between consecutive ROC points on which every trapezoid
contributes exactly its horizontal extent: either a vertical move
(equal `x`) or a move along the top edge (`y = 1` at both ends). -/
def flatStep (p q : ℚ × ℚ) : Prop := p.1 = q.1 ∨ (p.2 = 1 ∧ q.2 = 1)

/-- A small valid sample: 3 positions, too few for any window support. -/
def sTiny : Sample :=
  { profile := some ⟨[some 1, some 2, some 3]⟩
    ct := some ⟨"GGG", 3, [0, 1, 0]⟩ }

/-- The numeric state `windowedAUROC` computes for `sTiny` at `pad = 1`. -/
def resTiny : AurocResult :=
  { sequence := "GGG", window := 3, nt_length := 3
    auroc := [none, none, none], auroc_median := none }

/-- A sample whose `data` dictionary lacks the `"profile"` key. -/
def sNoProfile : Sample := { profile := none, ct := some ⟨"GG", 2, [0, 1]⟩ }

/-- A sample whose `data` dictionary lacks the `"ct"` key. -/
def sNoCt : Sample := { profile := some ⟨[some 1]⟩, ct := none }

/-- Signal of length 3 with labels of length 5: a length mismatch with
the labels array longer. -/
def sMismatch : Sample :=
  { profile := some ⟨[some 1, some 2, some 3]⟩
    ct := some ⟨"GGGGG", 5, [0, 1, 0, 1, 0]⟩ }

/-- Signal of length 3 with labels of length 2: a length mismatch with
the labels array shorter. -/
def sShort : Sample :=
  { profile := some ⟨[some 1, some 2, some 3]⟩
    ct := some ⟨"GG", 2, [0, 1]⟩ }

/-- 21 positions, pad 10: the center window has 10 valid unpaired but
only 9 valid paired positions (2 paired signals are missing). -/
def sC1w : Sample :=
  { profile := some ⟨List.replicate 10 (some 2) ++ List.replicate 9 (some 1)
      ++ [none, none]⟩
    ct := some ⟨"x", 21, List.replicate 10 0 ++ List.replicate 11 1⟩ }

/-- 21 positions, pad 10: the center signal itself is missing, yet the
window still has 10 valid unpaired and 10 valid paired positions. -/
def sC2w : Sample :=
  { profile := some ⟨List.replicate 10 (some 2) ++ [none]
      ++ List.replicate 10 (some 1)⟩
    ct := some ⟨"x", 21, List.replicate 10 0 ++ [0] ++ List.replicate 10 1⟩ }

/-- 21 positions, pad 10, no missing values: every unpaired signal (3)
strictly above every paired signal (1), 10 and 11 of the classes. -/
def sC3w : Sample :=
  { profile := some ⟨List.replicate 10 (some 3) ++ List.replicate 11 (some 1)⟩
    ct := some ⟨"x", 21, List.replicate 10 0 ++ List.replicate 11 1⟩ }

/-- 21 positions, pad 10, all signal values equal: ties everywhere. -/
def sC9w : Sample :=
  { profile := some ⟨List.replicate 21 (some 1)⟩
    ct := some ⟨"x", 21, List.replicate 10 0 ++ List.replicate 11 1⟩ }

/-! ## Basic lemmas: Python slicing, assignment, masking -/

theorem pyBound_of_nonneg {n : ℕ} {a : ℤ} (ha : 0 ≤ a) (h : a ≤ n) :
    pyBound n a = a.toNat := by
  simp only [pyBound]
  rw [if_neg (by omega), if_neg (by omega)]
  omega

theorem pySlice_length {α : Type} {xs : List α} {a b : ℤ} (ha : 0 ≤ a)
    (hab : a ≤ b) (hb : b ≤ xs.length) :
    (pySlice xs a b).length = (b - a).toNat := by
  simp only [pySlice, List.length_drop, List.length_take]
  rw [pyBound_of_nonneg (le_trans ha hab) hb, pyBound_of_nonneg ha (le_trans hab hb)]
  omega

theorem pySet_ok {α : Type} {xs : List α} {i : ℤ} {v : α} (h0 : 0 ≤ i)
    (hl : i < xs.length) : pySet xs i v = .ok (xs.set i.toNat v) := by
  simp only [pySet]
  rw [if_neg (not_lt.mpr h0), if_pos ⟨h0, hl⟩]

theorem intRange_mem {a lo hi : ℤ} : a ∈ intRange lo hi ↔ lo ≤ a ∧ a < hi := by
  simp only [intRange, List.mem_map, List.mem_range]
  constructor
  · rintro ⟨k, hk, rfl⟩; omega
  · intro ⟨h1, h2⟩; exact ⟨(a - lo).toNat, by omega, by omega⟩

theorem intRange_nodup {lo hi : ℤ} : (intRange lo hi).Nodup := by
  simp only [intRange]
  exact (List.nodup_range _).map (fun x y h => by omega)

theorem intRange_eq_nil {lo hi : ℤ} (h : hi ≤ lo) : intRange lo hi = [] := by
  simp only [intRange]
  rw [show (hi - lo).toNat = 0 by omega]
  rfl

theorem intRange_cons {lo hi : ℤ} (h : lo < hi) :
    intRange lo hi = lo :: intRange (lo + 1) hi := by
  simp only [intRange]
  rw [show (hi - lo).toNat = ((hi - (lo + 1)).toNat) + 1 by omega,
    List.range_succ_eq_map, List.map_cons, List.map_map]
  refine List.cons_eq_cons.mpr ⟨by simp, ?_⟩
  apply List.map_congr_left
  intro k _
  simp only [Function.comp_apply]
  omega

theorem intRange_length {lo hi : ℤ} : (intRange lo hi).length = (hi - lo).toNat := by
  simp [intRange]

theorem getElem_intRange {lo hi : ℤ} {t : ℕ} (ht : t < (intRange lo hi).length) :
    (intRange lo hi)[t] = lo + t := by
  simp [intRange]

theorem mask_zip_list {α : Type} (cs : List α) (ps : List (Option ℚ))
    (h : cs.length = ps.length) :
    ((ps.map Option.isSome).zip cs).filterMap
        (fun p => if p.1 then some p.2 else none) =
      ((cs.zip ps).filterMap (fun p => p.2.map (fun v => (p.1, v)))).map
        Prod.fst := by
  induction cs generalizing ps with
  | nil => cases ps <;> simp_all
  | cons c cs ih =>
    cases ps with
    | nil => simp at h
    | cons o ps =>
      simp only [List.length_cons, Nat.succ_inj] at h
      cases o <;> simp [ih _ h]

theorem maskSelect_isSome_zip {α : Type} (cs : List α) (ps : List (Option ℚ))
    (h : cs.length = ps.length) :
    maskSelect (ps.map Option.isSome) cs =
      .ok (((cs.zip ps).filterMap (fun p => p.2.map (fun v => (p.1, v)))).map
        Prod.fst) := by
  simp only [maskSelect, List.length_map]
  rw [if_pos h.symm]
  exact congrArg Except.ok (mask_zip_list cs ps h)

theorem mask_self_list (ps : List (Option ℚ)) :
    ((ps.map Option.isSome).zip ps).filterMap
        (fun p => if p.1 then some p.2 else none) =
      ps.filter (fun o => o.isSome) := by
  induction ps with
  | nil => rfl
  | cons o ps ih => cases o <;> simp [ih]

theorem maskSelect_isSome_self (ps : List (Option ℚ)) :
    maskSelect (ps.map Option.isSome) ps = .ok (ps.filter (fun o => o.isSome)) := by
  simp only [maskSelect, List.length_map]
  rw [if_pos trivial]
  exact congrArg Except.ok (mask_self_list ps)

theorem zip_filterMap_snd {α : Type} (cs : List α) (ps : List (Option ℚ))
    (h : cs.length = ps.length) :
    (((cs.zip ps).filterMap (fun p => p.2.map (fun v => (p.1, v)))).map
      Prod.snd) = ps.filterMap id := by
  induction cs generalizing ps with
  | nil => cases ps <;> simp at h ⊢
  | cons c cs ih =>
    cases ps with
    | nil => simp at h
    | cons o ps =>
      simp only [List.length_cons, Nat.succ_inj] at h
      cases o <;> simp [ih _ h]

theorem filter_isSome_filterMap (ps : List (Option ℚ)) :
    (ps.filter (fun o => o.isSome)).filterMap id = ps.filterMap id := by
  induction ps with
  | nil => rfl
  | cons o ps ih => cases o <;> simp [ih]

theorem replicate_getD_none {n j : ℕ} :
    (List.replicate n (none : Option ℚ)).getD j none = none := by
  rcases lt_or_le j n with h | h
  · rw [List.getD_eq_getElem?_getD, List.getElem?_eq_getElem (by simpa using h)]
    simp
  · rw [List.getD_eq_getElem?_getD, List.getElem?_eq_none (by simpa using h)]
    rfl

/-! ## Characterizing one window step -/

theorem count_true_map_eq (wv : List (ℕ × ℚ)) :
    (wv.map (fun p => p.1 == 0)).count true = wv.countP (fun p => p.1 == 0) := by
  rw [List.count_eq_countP, List.countP_map]
  apply List.countP_congr
  intro p _
  simp

theorem count_false_map_eq (wv : List (ℕ × ℚ)) :
    (wv.map (fun p => p.1 == 0)).count false = wv.countP (fun p => !(p.1 == 0)) := by
  rw [List.count_eq_countP, List.countP_map]
  apply List.countP_congr
  intro p _
  simp

theorem windowStep_ok {profile : Signal} {ct : List ℕ} {pad i : ℤ}
    (hpad : 0 ≤ pad) (ha : pad ≤ i) (hb : i + pad + 1 ≤ (profile.length : ℤ))
    (hlen : profile.length ≤ ct.length) :
    windowStep profile ct pad i = .ok (stepVal profile ct pad i) := by
  have ha0 : (0:ℤ) ≤ i - pad := by omega
  have hab : i - pad ≤ i + pad + 1 := by omega
  have hb2 : i + pad + 1 ≤ (ct.length : ℤ) := by
    have : (profile.length : ℤ) ≤ (ct.length : ℤ) := by exact_mod_cast hlen
    omega
  have hlp := @pySlice_length (Option ℚ) profile _ _ ha0 hab hb
  have hlc := @pySlice_length ℕ ct _ _ ha0 hab hb2
  have hcl : (pySlice ct (i - pad) (i + pad + 1)).length =
      (pySlice profile (i - pad) (i + pad + 1)).length := by rw [hlp, hlc]
  simp only [windowStep]
  rw [maskSelect_isSome_zip _ _ hcl, maskSelect_isSome_self]
  simp only [stepVal, windowValid]
  rw [List.map_map, filter_isSome_filterMap, ← zip_filterMap_snd _ _ hcl]
  simp only [Function.comp_def]
  split <;> rfl

/-! ## Characterizing the loop -/

theorem aurocFold_spec (profile : Signal) (ct : List ℕ) (pad : ℤ) :
    ∀ (is : List ℤ) (arr : List (Option ℚ)),
      (∀ i ∈ is, 0 ≤ i ∧ i < (arr.length : ℤ) ∧
        ∃ r, windowStep profile ct pad i = .ok r) →
      is.Nodup →
      ∃ arrf, aurocFold profile ct pad is arr = .ok arrf ∧
        arrf.length = arr.length ∧
        (∀ j : ℕ, ((j:ℤ) ∉ is) → arrf.getD j none = arr.getD j none) ∧
        (∀ j : ℕ, (j:ℤ) ∈ is → ∀ r, windowStep profile ct pad (j:ℤ) = .ok r →
          arrf.getD j none = r.or (arr.getD j none)) := by
  intro is
  induction is with
  | nil =>
    intro arr _ _
    exact ⟨arr, rfl, rfl, fun _ _ => rfl, fun j hj => absurd hj (List.not_mem_nil _)⟩
  | cons i rest ih =>
    intro arr hall hnd
    obtain ⟨h0, hlt, r, hr⟩ := hall i (List.mem_cons_self _ _)
    have hnotin : i ∉ rest := (List.nodup_cons.mp hnd).1
    have hnd' : rest.Nodup := (List.nodup_cons.mp hnd).2
    have hall' : ∀ i' ∈ rest, 0 ≤ i' ∧ i' < (arr.length : ℤ) ∧
        ∃ r, windowStep profile ct pad i' = .ok r :=
      fun i' hi' => hall i' (List.mem_cons_of_mem _ hi')
    cases r with
    | none =>
      have hstep : aurocFold profile ct pad (i :: rest) arr
          = aurocFold profile ct pad rest arr := by
        simp only [aurocFold, hr]
      obtain ⟨arrf, h1, h2, h3, h4⟩ := ih arr hall' hnd'
      refine ⟨arrf, hstep ▸ h1, h2, ?_, ?_⟩
      · intro j hj
        exact h3 j (fun hm => hj (List.mem_cons_of_mem _ hm))
      · intro j hj r' hr'
        rcases List.mem_cons.mp hj with heq | hm
        · have hjn : ((j:ℤ)) ∉ rest := by rw [heq]; exact hnotin
          rw [h3 j hjn]
          rw [heq, hr] at hr'
          injection hr' with hh
          rw [← hh]
          rfl
        · exact h4 j hm r' hr'
    | some v =>
      have hset : pySet arr i (some v) = .ok (arr.set i.toNat (some v)) :=
        pySet_ok h0 hlt
      have hstep : aurocFold profile ct pad (i :: rest) arr
          = aurocFold profile ct pad rest (arr.set i.toNat (some v)) := by
        simp only [aurocFold, hr, hset]
      have hall'' : ∀ i' ∈ rest, 0 ≤ i' ∧
          i' < ((arr.set i.toNat (some v)).length : ℤ) ∧
          ∃ r, windowStep profile ct pad i' = .ok r := by
        intro i' hi'
        obtain ⟨a, b, c⟩ := hall' i' hi'
        exact ⟨a, by rwa [List.length_set], c⟩
      obtain ⟨arrf, h1, h2, h3, h4⟩ := ih (arr.set i.toNat (some v)) hall'' hnd'
      refine ⟨arrf, hstep ▸ h1, by rw [h2, List.length_set], ?_, ?_⟩
      · intro j hj
        have hj1 : (j:ℤ) ≠ i := fun hh => hj (hh ▸ List.mem_cons_self _ _)
        have hj2 : (j:ℤ) ∉ rest := fun hm => hj (List.mem_cons_of_mem _ hm)
        have hne : i.toNat ≠ j := by omega
        rw [h3 j hj2, List.getD_eq_getElem?_getD, List.getElem?_set_ne hne,
          ← List.getD_eq_getElem?_getD]
      · intro j hj r' hr'
        rcases List.mem_cons.mp hj with heqj | hm
        · have hji : ((j:ℤ)) = i := heqj
          have hjn : ((j:ℤ)) ∉ rest := by rw [hji]; exact hnotin
          rw [h3 j hjn]
          have hjnat : i.toNat = j := by omega
          have hil : i.toNat < arr.length := by omega
          have hgetv : (arr.set i.toNat (some v)).getD j none = some v := by
            rw [← hjnat, List.getD_eq_getElem?_getD, List.getElem?_set_self hil]
            rfl
          rw [hgetv]
          rw [hji, hr] at hr'
          injection hr' with hh
          rw [← hh]
          rfl
        · have hjne : ((j:ℤ)) ≠ i := fun hh => hnotin (hh ▸ hm)
          have hne2 : i.toNat ≠ j := by omega
          have h5 := h4 j hm r' hr'
          have harr : (arr.set i.toNat (some v)).getD j none
              = arr.getD j none := by
            rw [List.getD_eq_getElem?_getD, List.getElem?_set_ne hne2,
              ← List.getD_eq_getElem?_getD]
          rw [harr] at h5
          exact h5

theorem aurocLoop_spec (profile : Signal) (ct : List ℕ) (pad : ℕ)
    (hlen : profile.length ≤ ct.length) :
    ∃ arr, aurocLoop profile ct (pad : ℤ) = .ok arr ∧
      arr.length = profile.length ∧
      (∀ j : ℕ, pad ≤ j → j + pad + 1 ≤ profile.length →
        arr.getD j none = stepVal profile ct (pad : ℤ) (j : ℤ)) ∧
      (∀ j : ℕ, ¬(pad ≤ j ∧ j + pad + 1 ≤ profile.length) →
        arr.getD j none = none) := by
  have setup : ∀ i ∈ intRange (pad : ℤ) ((profile.length : ℤ) - pad),
      0 ≤ i ∧ i < ((List.replicate profile.length (none : Option ℚ)).length : ℤ) ∧
      ∃ r, windowStep profile ct pad i = .ok r := by
    intro i hi
    rw [intRange_mem] at hi
    refine ⟨by omega, ?_, stepVal profile ct pad i,
      windowStep_ok (by omega) hi.1 (by omega) hlen⟩
    rw [List.length_replicate]
    omega
  obtain ⟨arrf, h1, h2, h3, h4⟩ :=
    aurocFold_spec profile ct pad _ _ setup intRange_nodup
  refine ⟨arrf, h1, by rw [h2, List.length_replicate], ?_, ?_⟩
  · intro j hj1 hj2
    have hmem : ((j:ℤ)) ∈ intRange (pad : ℤ) ((profile.length : ℤ) - pad) :=
      intRange_mem.mpr (by omega)
    rw [h4 j hmem (stepVal profile ct pad j)
      (windowStep_ok (by omega) (by omega) (by omega) hlen),
      replicate_getD_none, Option.or_none]
  · intro j hj
    have hnm : ((j:ℤ)) ∉ intRange (pad : ℤ) ((profile.length : ℤ) - pad) := by
      rw [intRange_mem]
      omega
    rw [h3 j hnm, replicate_getD_none]

/-! ## Characterizing `windowedAUROC` on well-formed samples -/

theorem windowedAUROC_spec (sample : Sample) (pd : ProfileData) (cd : CtData)
    (pad : ℕ) (hp : sample.profile = some pd) (hc : sample.ct = some cd)
    (hlen : pd.norm_profile.length ≤ cd.ct.length) :
    ∃ arr, windowedAUROC sample (pad : ℤ) = .ok
        { sequence := cd.sequence, window := (pad : ℤ) * 2 + 1
          nt_length := cd.length, auroc := arr
          auroc_median := nanmedian arr } ∧
      arr.length = pd.norm_profile.length ∧
      (∀ j : ℕ, pad ≤ j → j + pad + 1 ≤ pd.norm_profile.length →
        arr.getD j none = stepVal pd.norm_profile cd.ct (pad : ℤ) (j : ℤ)) ∧
      (∀ j : ℕ, ¬(pad ≤ j ∧ j + pad + 1 ≤ pd.norm_profile.length) →
        arr.getD j none = none) := by
  obtain ⟨arr, h1, h2, h3, h4⟩ := aurocLoop_spec pd.norm_profile cd.ct pad hlen
  refine ⟨arr, ?_, h2, h3, h4⟩
  simp only [windowedAUROC, hp, hc]
  rw [h1]

theorem windowedAUROC_ok_median (sample : Sample) (pad : ℤ) (res : AurocResult)
    (h : windowedAUROC sample pad = .ok res) :
    res.auroc_median = nanmedian res.auroc := by
  cases hp : sample.profile with
  | none =>
    simp only [windowedAUROC, hp] at h
    exact Except.noConfusion h
  | some pd =>
    cases hc : sample.ct with
    | none =>
      simp only [windowedAUROC, hp, hc] at h
      exact Except.noConfusion h
    | some cd =>
      cases hl : aurocLoop pd.norm_profile cd.ct pad with
      | error e =>
        simp only [windowedAUROC, hp, hc, hl] at h
        exact Except.noConfusion h
      | ok arr =>
        simp only [windowedAUROC, hp, hc, hl] at h
        injection h with hh
        rw [← hh]

/-! ## The median: sorting and permutation invariance -/

theorem insertAsc_perm (a : ℚ) (l : List ℚ) :
    List.Perm (insertAsc a l) (a :: l) := by
  induction l with
  | nil => exact List.Perm.refl _
  | cons b bs ih =>
    simp only [insertAsc]
    split
    · exact List.Perm.refl _
    · exact (ih.cons b).trans (List.Perm.swap a b bs)

theorem sortAsc_perm (l : List ℚ) : List.Perm (sortAsc l) l := by
  induction l with
  | nil => exact List.Perm.refl _
  | cons a l ih => exact (insertAsc_perm a (sortAsc l)).trans (ih.cons a)

theorem insertAsc_sorted {a : ℚ} {l : List ℚ} (h : l.Pairwise (· ≤ ·)) :
    (insertAsc a l).Pairwise (· ≤ ·) := by
  induction l with
  | nil => simp [insertAsc]
  | cons b bs ih =>
    rcases List.pairwise_cons.mp h with ⟨hb, hbs⟩
    simp only [insertAsc]
    split
    · rename_i hab
      refine List.pairwise_cons.mpr ⟨?_, h⟩
      intro x hx
      rcases List.mem_cons.mp hx with rfl | hxbs
      · exact hab
      · exact le_trans hab (hb x hxbs)
    · rename_i hab
      refine List.pairwise_cons.mpr ⟨?_, ih hbs⟩
      intro x hx
      rcases List.mem_cons.mp ((insertAsc_perm a bs).mem_iff.mp hx) with rfl | hxbs
      · exact le_of_not_le hab
      · exact hb x hxbs

theorem sortAsc_sorted (l : List ℚ) : (sortAsc l).Pairwise (· ≤ ·) := by
  induction l with
  | nil => simp [sortAsc]
  | cons a l ih => exact insertAsc_sorted ih

theorem sortAsc_eq_of_perm {l l' : List ℚ} (h : List.Perm l l') :
    sortAsc l = sortAsc l' :=
  List.eq_of_perm_of_sorted
    ((sortAsc_perm l).trans (h.trans (sortAsc_perm l').symm))
    (sortAsc_sorted l) (sortAsc_sorted l')

theorem npmedian_congr {l l' : List ℚ} (h : List.Perm l l') :
    npmedian l = npmedian l' := by
  simp only [npmedian]
  rw [sortAsc_eq_of_perm h]

theorem nanmedian_congr {arr arr' : List (Option ℚ)}
    (h : List.Perm (arr.filterMap id) (arr'.filterMap id)) :
    nanmedian arr = nanmedian arr' := by
  simp only [nanmedian]
  rcases eq_or_ne (arr.filterMap id) [] with he | he
  · have h0 : List.Perm ([] : List ℚ) (arr'.filterMap id) := he ▸ h
    rw [he, h0.symm.eq_nil]
  · have he' : arr'.filterMap id ≠ [] := by
      intro hh
      rw [hh] at h
      exact he h.eq_nil
    rw [if_neg he, if_neg he', npmedian_congr h]

theorem nanmedian_all_none {arr : List (Option ℚ)} (h : ∀ x ∈ arr, x = none) :
    nanmedian arr = none := by
  have hnil : arr.filterMap id = [] := List.filterMap_eq_nil_iff.mpr h
  simp [nanmedian, hnil]

theorem nanmedian_example :
    nanmedian [none, some (3/5 : ℚ), none, some (4/5), some (7/10)]
      = some (7/10) := by
  have e0 : ([none, some (3/5 : ℚ), none, some (4/5), some (7/10)].filterMap
      id) = [3/5, 4/5, 7/10] := rfl
  have e1 : insertAsc (4/5 : ℚ) [7/10] = [7/10, 4/5] := by
    simp only [insertAsc]
    rw [if_neg (by norm_num)]
  have e2 : insertAsc (3/5 : ℚ) [7/10, 4/5] = [3/5, 7/10, 4/5] := by
    simp only [insertAsc]
    rw [if_pos (by norm_num)]
  have e3 : sortAsc [3/5, 4/5, 7/10] = [3/5, 7/10, 4/5] := by
    show insertAsc (3/5 : ℚ) (insertAsc (4/5) (insertAsc (7/10) [])) = _
    rw [show insertAsc (7/10 : ℚ) [] = [7/10] from rfl, e1, e2]
  simp only [nanmedian, e0]
  rw [if_neg (by simp)]
  simp only [npmedian, e3]
  norm_num

/-! ## Window contents as a function of original-array indices -/

theorem pySlice_eq_map {α : Type} (xs : List α) (d : α) {a b : ℤ} (ha : 0 ≤ a)
    (hab : a ≤ b) (hb : b ≤ (xs.length : ℤ)) :
    pySlice xs a b = (intRange a b).map (fun k => xs.getD k.toNat d) := by
  apply List.ext_getElem
  · rw [pySlice_length ha hab hb, List.length_map, intRange_length]
  · intro t h1 h2
    have hlen : (pySlice xs a b).length = (b - a).toNat := pySlice_length ha hab hb
    rw [List.getElem_map, getElem_intRange]
    simp only [pySlice]
    have hb' : pyBound xs.length b = b.toNat := pyBound_of_nonneg (le_trans ha hab) hb
    have ha' : pyBound xs.length a = a.toNat := pyBound_of_nonneg ha (le_trans hab hb)
    rw [List.getElem_drop, List.getElem_take]
    have hbound : (a + (t : ℤ)).toNat < xs.length := by
      rw [hlen] at h1
      omega
    have hidx : pyBound xs.length a + t = (a + (t : ℤ)).toNat := by
      rw [ha']
      rw [hlen] at h1
      omega
    rw [List.getD_eq_getElem?_getD, List.getElem?_eq_getElem hbound,
      Option.getD_some]
    simp only [hidx]

theorem countP_filterMap {α β : Type} (g : α → Option β) (q : β → Bool)
    (l : List α) :
    (l.filterMap g).countP q = l.countP (fun a => ((g a).map q).getD false) := by
  induction l with
  | nil => rfl
  | cons a l ih =>
    cases hg : g a with
    | none => simp [List.filterMap_cons, hg, List.countP_cons, ih]
    | some b => simp [List.filterMap_cons, hg, List.countP_cons, ih]

theorem windowValid_eq_map {profile : Signal} {ct : List ℕ} {pad i : ℤ}
    (ha : pad ≤ i) (hb : i + pad + 1 ≤ (profile.length : ℤ))
    (hpad : 0 ≤ pad) (hlen : profile.length ≤ ct.length) :
    windowValid profile ct pad i =
      (intRange (i - pad) (i + pad + 1)).filterMap
        (fun k => (profile.getD k.toNat none).map
          (fun v => (ct.getD k.toNat 0, v))) := by
  have ha0 : (0:ℤ) ≤ i - pad := by omega
  have hab : i - pad ≤ i + pad + 1 := by omega
  have hlen' : (profile.length : ℤ) ≤ (ct.length : ℤ) := by exact_mod_cast hlen
  rw [windowValid, pySlice_eq_map ct (0 : ℕ) ha0 hab (by omega),
    pySlice_eq_map profile (none : Option ℚ) ha0 hab hb, List.zip_map',
    List.filterMap_map]
  rfl

/-! ## Claims C1 and C2: support-count threshold and missing-value rule -/

/-- C1. For every interior center position (`pad ≤ i ≤ N-1-pad`), the
output score at `i` is defined iff, after removing window positions
whose signal value is missing, the window `[i-pad, i+pad]` holds at
least 10 paired (`ct ≠ 0`) and at least 10 unpaired (`ct = 0`)
positions; in particular with 9 of one class and 10 of the other the
position stays undefined, and no error is raised either way. -/
theorem claim_C1 (sample : Sample) (pd : ProfileData) (cd : CtData)
    (pad i : ℕ) (hp : sample.profile = some pd) (hc : sample.ct = some cd)
    (hlen : cd.ct.length = pd.norm_profile.length)
    (hi1 : pad ≤ i) (hi2 : i + pad + 1 ≤ pd.norm_profile.length) :
    ∃ res, windowedAUROC sample (pad : ℤ) = .ok res ∧
      ((res.auroc.getD i none).isSome ↔
        (10 ≤ (windowValid pd.norm_profile cd.ct (pad : ℤ) (i : ℤ)).countP
            (fun p => !(p.1 == 0)) ∧
         10 ≤ (windowValid pd.norm_profile cd.ct (pad : ℤ) (i : ℤ)).countP
            (fun p => p.1 == 0))) := by
  obtain ⟨arr, h1, h2, h3, h4⟩ :=
    windowedAUROC_spec sample pd cd pad hp hc hlen.ge
  refine ⟨_, h1, ?_⟩
  show (arr.getD i none).isSome ↔ _
  rw [h3 i hi1 hi2]
  simp only [stepVal]
  rw [count_true_map_eq, count_false_map_eq]
  split
  · rename_i hcond
    simp only [Option.isSome_none, Bool.false_eq_true, false_iff]
    omega
  · rename_i hcond
    simp only [Option.isSome_some, true_iff]
    omega

/-- C2. For every window, positions with missing signal are dropped from
the score list and the label list together, so they never feed
`n_paired` or `n_unpaired`: whether output position `i` is defined is
equivalent to support counts over exactly the window indices whose
signal value is present.  The equivalence carries no extra condition on
`signal[i]` itself: definedness is driven purely by the window-fit and
support-count checks. -/
theorem claim_C2 (sample : Sample) (pd : ProfileData) (cd : CtData)
    (pad i : ℕ) (hp : sample.profile = some pd) (hc : sample.ct = some cd)
    (hlen : cd.ct.length = pd.norm_profile.length)
    (hi1 : pad ≤ i) (hi2 : i + pad + 1 ≤ pd.norm_profile.length) :
    ∃ res, windowedAUROC sample (pad : ℤ) = .ok res ∧
      ((res.auroc.getD i none).isSome ↔
        (10 ≤ ((intRange ((i : ℤ) - pad) ((i : ℤ) + pad + 1)).filter
            (fun k => (pd.norm_profile.getD k.toNat none).isSome
              && (cd.ct.getD k.toNat 0 == 0))).length ∧
         10 ≤ ((intRange ((i : ℤ) - pad) ((i : ℤ) + pad + 1)).filter
            (fun k => (pd.norm_profile.getD k.toNat none).isSome
              && !(cd.ct.getD k.toNat 0 == 0))).length)) := by
  obtain ⟨arr, h1, h2, h3, h4⟩ :=
    windowedAUROC_spec sample pd cd pad hp hc hlen.ge
  refine ⟨_, h1, ?_⟩
  show (arr.getD i none).isSome ↔ _
  rw [h3 i hi1 hi2]
  simp only [stepVal]
  rw [count_true_map_eq, count_false_map_eq,
    windowValid_eq_map (by exact_mod_cast hi1) (by exact_mod_cast hi2)
      (by positivity) hlen.ge,
    countP_filterMap, countP_filterMap]
  have hcu : ∀ k : ℤ,
      (((pd.norm_profile.getD k.toNat none).map
        (fun v => ((cd.ct.getD k.toNat 0, v) : ℕ × ℚ))).map
          (fun p => p.1 == 0)).getD false
      = ((pd.norm_profile.getD k.toNat none).isSome
          && (cd.ct.getD k.toNat 0 == 0)) := by
    intro k
    cases pd.norm_profile.getD k.toNat none <;> simp
  have hcp : ∀ k : ℤ,
      (((pd.norm_profile.getD k.toNat none).map
        (fun v => ((cd.ct.getD k.toNat 0, v) : ℕ × ℚ))).map
          (fun p => !(p.1 == 0))).getD false
      = ((pd.norm_profile.getD k.toNat none).isSome
          && !(cd.ct.getD k.toNat 0 == 0)) := by
    intro k
    cases pd.norm_profile.getD k.toNat none <;> simp
  simp only [hcu, hcp]
  rw [List.countP_eq_length_filter, List.countP_eq_length_filter]
  split
  · rename_i hcond
    simp only [Option.isSome_none, Bool.false_eq_true, false_iff]
    omega
  · rename_i hcond
    simp only [Option.isSome_some, true_iff]
    omega

/-! ## Claims C4, C5, C8, C10 -/

theorem aurocFold_untouched (profile : Signal) (ct : List ℕ) (pad : ℤ)
    (hpad : 0 ≤ pad) :
    ∀ (is : List ℤ) (arr arrf : List (Option ℚ)),
      (∀ i ∈ is, pad ≤ i) →
      aurocFold profile ct pad is arr = .ok arrf →
      ∀ j : ℕ, ((j:ℤ) ∉ is) → arrf.getD j none = arr.getD j none := by
  intro is
  induction is with
  | nil =>
    intro arr arrf _ h j _
    simp only [aurocFold] at h
    injection h with hh
    rw [hh]
  | cons i rest ih =>
    intro arr arrf hall h j hj
    have hji : (j:ℤ) ≠ i := fun hh => hj (hh ▸ List.mem_cons_self _ _)
    have hjr : (j:ℤ) ∉ rest := fun hm => hj (List.mem_cons_of_mem _ hm)
    have hi : pad ≤ i := hall i (List.mem_cons_self _ _)
    have h0i : (0:ℤ) ≤ i := le_trans hpad hi
    cases hw : windowStep profile ct pad i with
    | error e =>
      simp only [aurocFold, hw] at h
      exact Except.noConfusion h
    | ok r =>
      cases r with
      | none =>
        simp only [aurocFold, hw] at h
        exact ih arr arrf (fun x hx => hall x (List.mem_cons_of_mem _ hx)) h j hjr
      | some v =>
        simp only [aurocFold, hw] at h
        cases hs : pySet arr i (some v) with
        | error e =>
          simp only [hs] at h
          exact Except.noConfusion h
        | ok arr' =>
          simp only [hs] at h
          have hrec := ih arr' arrf
            (fun x hx => hall x (List.mem_cons_of_mem _ hx)) h j hjr
          simp only [pySet, if_neg (not_lt.mpr h0i)] at hs
          by_cases hcond : 0 ≤ i ∧ i < (arr.length : ℤ)
          · rw [if_pos hcond] at hs
            injection hs with hs'
            rw [hrec, ← hs']
            have hne : i.toNat ≠ j := by omega
            rw [List.getD_eq_getElem?_getD, List.getElem?_set_ne hne,
              ← List.getD_eq_getElem?_getD]
          · rw [if_neg hcond] at hs
            exact Except.noConfusion hs

/-- C4. For every input accepted without error, every output position
`i` with `i < pad` or `i ≥ N - pad` is undefined; and when the signal
length `N` is below `2*pad+1`, the loop body never runs, so the entire
output is undefined and no error is raised. -/
theorem claim_C4 (sample : Sample) (pd : ProfileData) (cd : CtData) (pad : ℕ)
    (hp : sample.profile = some pd) (hc : sample.ct = some cd) :
    (∀ res, windowedAUROC sample (pad : ℤ) = .ok res →
      ∀ j : ℕ, j < pad ∨ pd.norm_profile.length ≤ j + pad →
        res.auroc.getD j none = none)
  ∧ (pd.norm_profile.length < 2 * pad + 1 →
      ∃ res, windowedAUROC sample (pad : ℤ) = .ok res ∧
        ∀ j : ℕ, res.auroc.getD j none = none) := by
  constructor
  · intro res h j hj
    simp only [windowedAUROC, hp, hc] at h
    cases hl : aurocLoop pd.norm_profile cd.ct pad with
    | error e =>
      rw [hl] at h
      exact Except.noConfusion h
    | ok arr =>
      rw [hl] at h
      injection h with hh
      rw [← hh]
      show arr.getD j none = none
      simp only [aurocLoop] at hl
      have hnotin : ((j:ℤ)) ∉
          intRange (pad : ℤ) ((pd.norm_profile.length : ℤ) - pad) := by
        rw [intRange_mem]
        omega
      rw [aurocFold_untouched pd.norm_profile cd.ct pad (by positivity) _ _ _
        (fun x hx => (intRange_mem.mp hx).1) hl j hnotin, replicate_getD_none]
  · intro hN
    have hrange : intRange (pad : ℤ) ((pd.norm_profile.length : ℤ) - pad)
        = [] := intRange_eq_nil (by omega)
    refine ⟨{ sequence := cd.sequence, window := (pad : ℤ) * 2 + 1
              nt_length := cd.length
              auroc := List.replicate pd.norm_profile.length none
              auroc_median :=
                nanmedian (List.replicate pd.norm_profile.length none) },
      ?_, ?_⟩
    · simp only [windowedAUROC, hp, hc, aurocLoop, hrange, aurocFold]
    · intro j
      exact replicate_getD_none

/-- C5. The aggregate is the median of exactly the defined entries of
the output array: it equals `nanmedian` of the output, `nanmedian`
depends only on the multiset of defined entries (undefined entries are
ignored), the spec's example `{0.6, 0.8, 0.7}` (with undefined entries
interleaved) yields `0.7`, and an all-undefined output yields an
undefined aggregate rather than an error. -/
theorem claim_C5 (sample : Sample) (pad : ℤ) (res : AurocResult)
    (h : windowedAUROC sample pad = .ok res) :
    res.auroc_median = nanmedian res.auroc
  ∧ (∀ arr arr' : List (Option ℚ),
      List.Perm (arr.filterMap id) (arr'.filterMap id) →
      nanmedian arr = nanmedian arr')
  ∧ nanmedian [none, some (3/5 : ℚ), none, some (4/5), some (7/10)]
      = some (7/10)
  ∧ ((∀ x ∈ res.auroc, x = none) → res.auroc_median = none) := by
  refine ⟨windowedAUROC_ok_median sample pad res h,
    fun arr arr' hperm => nanmedian_congr hperm, nanmedian_example,
    fun hall => ?_⟩
  rw [windowedAUROC_ok_median sample pad res h]
  exact nanmedian_all_none hall

/-- C8. For every valid input (both keys present, labels at least as
long as the signal here instantiated with equal lengths, `pad ≥ 0`),
the output array has the same length as the signal array and as the
labels array. -/
theorem claim_C8 (sample : Sample) (pd : ProfileData) (cd : CtData) (pad : ℕ)
    (hp : sample.profile = some pd) (hc : sample.ct = some cd)
    (hlen : cd.ct.length = pd.norm_profile.length) :
    ∃ res, windowedAUROC sample (pad : ℤ) = .ok res ∧
      res.auroc.length = pd.norm_profile.length ∧
      res.auroc.length = cd.ct.length := by
  obtain ⟨arr, h1, h2, _, _⟩ := windowedAUROC_spec sample pd cd pad hp hc hlen.ge
  refine ⟨_, h1, ?_, ?_⟩
  · show arr.length = _
    exact h2
  · show arr.length = _
    rw [h2, hlen]

/-- C10. Constructing the evaluator on a sample whose data dictionary
lacks the `"profile"` key, or the `"ct"` key, fails immediately with an
`AssertionError` naming the missing data, for every `pad`, before any
computation occurs. -/
theorem claim_C10 (sample : Sample) (pad : ℤ) :
    (sample.profile = none →
      windowedAUROC sample pad =
        .error (.assertionFail "Sample missing profile data"))
  ∧ (∀ pd, sample.profile = some pd → sample.ct = none →
      windowedAUROC sample pad =
        .error (.assertionFail "Sample missing ct data")) := by
  constructor
  · intro hp
    simp only [windowedAUROC, hp]
  · intro pd hp hc
    simp only [windowedAUROC, hp, hc]

/-! ## Lemmas for the unvalidated-parameter behaviors (C6, C7) -/

theorem pyBound_le {n : ℕ} {i : ℤ} : pyBound n i ≤ n := by
  simp only [pyBound]
  split
  · split
    · omega
    · exact min_le_right _ _
  · exact min_le_right _ _

theorem pyBound_nonneg_eq {n : ℕ} {i : ℤ} (h : 0 ≤ i) :
    pyBound n i = min i.toNat n := by
  simp only [pyBound]
  rw [if_neg (not_lt.mpr h), if_neg (by omega)]

theorem pySlice_length_general {α : Type} (xs : List α) (a b : ℤ) :
    (pySlice xs a b).length = pyBound xs.length b - pyBound xs.length a := by
  simp only [pySlice, List.length_drop, List.length_take]
  rw [min_eq_left (pyBound_le (n := xs.length) (i := b))]

theorem pySlice_eq_nil {α : Type} {xs : List α} {a b : ℤ}
    (h : pyBound xs.length b ≤ pyBound xs.length a) : pySlice xs a b = [] := by
  have hl := pySlice_length_general xs a b
  exact List.length_eq_zero.mp (by omega)

theorem pyBound_mono {n : ℕ} {a b : ℤ} (ha : 0 ≤ a) (hab : a ≤ b) :
    pyBound n a ≤ pyBound n b := by
  rw [pyBound_nonneg_eq ha, pyBound_nonneg_eq (le_trans ha hab)]
  exact min_le_min (by omega) le_rfl

theorem maskSelect_error {α : Type} {mask : List Bool} {xs : List α}
    {e : PyErr} (h : maskSelect mask xs = .error e) : e = .indexFail := by
  simp only [maskSelect] at h
  split at h
  · exact Except.noConfusion h
  · injection h with hh
    exact hh.symm

theorem maskSelect_ne_len {α : Type} {mask : List Bool} {xs : List α}
    (h : mask.length ≠ xs.length) : maskSelect mask xs = .error .indexFail := by
  simp only [maskSelect]
  rw [if_neg h]

theorem windowStep_error_eq {profile : Signal} {ct : List ℕ} {pad i : ℤ}
    {e : PyErr} (h : windowStep profile ct pad i = .error e) :
    e = .indexFail := by
  simp only [windowStep] at h
  cases hm1 : maskSelect
      ((pySlice profile (i - pad) (i + pad + 1)).map Option.isSome)
      (pySlice ct (i - pad) (i + pad + 1)) with
  | error e1 =>
    simp only [hm1] at h
    injection h with hh
    rw [← hh]
    exact maskSelect_error hm1
  | ok yv =>
    cases hm2 : maskSelect
        ((pySlice profile (i - pad) (i + pad + 1)).map Option.isSome)
        (pySlice profile (i - pad) (i + pad + 1)) with
    | error e2 =>
      simp only [hm1, hm2] at h
      injection h with hh
      rw [← hh]
      exact maskSelect_error hm2
    | ok sv =>
      simp only [hm1, hm2] at h
      split at h <;> exact Except.noConfusion h

theorem windowStep_ok_len {profile : Signal} {ct : List ℕ} {pad i : ℤ}
    (hcl : (pySlice ct (i - pad) (i + pad + 1)).length =
      (pySlice profile (i - pad) (i + pad + 1)).length) :
    windowStep profile ct pad i = .ok (stepVal profile ct pad i) := by
  simp only [windowStep]
  rw [maskSelect_isSome_zip _ _ hcl, maskSelect_isSome_self]
  simp only [stepVal, windowValid]
  rw [List.map_map, filter_isSome_filterMap, ← zip_filterMap_snd _ _ hcl]
  simp only [Function.comp_def]
  split <;> rfl

theorem windowStep_empty {profile : Signal} {ct : List ℕ} {i : ℤ}
    (hi : 0 ≤ i) : windowStep profile ct (-1) i = .ok none := by
  have hp : pySlice profile (i - -1) (i + -1 + 1) = [] := by
    apply pySlice_eq_nil
    apply pyBound_mono (by omega) (by omega)
  have hc : pySlice ct (i - -1) (i + -1 + 1) = [] := by
    apply pySlice_eq_nil
    apply pyBound_mono (by omega) (by omega)
  simp only [windowStep, hp, hc]
  rfl

theorem aurocFold_noop (profile : Signal) (ct : List ℕ) (pad : ℤ) :
    ∀ (is : List ℤ) (arr : List (Option ℚ)),
      (∀ i ∈ is, windowStep profile ct pad i = .ok none) →
      aurocFold profile ct pad is arr = .ok arr := by
  intro is
  induction is with
  | nil => intro arr _; rfl
  | cons i rest ih =>
    intro arr hall
    simp only [aurocFold, hall i (List.mem_cons_self _ _)]
    exact ih arr (fun x hx => hall x (List.mem_cons_of_mem _ hx))

theorem aurocFold_error (profile : Signal) (ct : List ℕ) (pad : ℤ)
    (hpad : 0 ≤ pad) :
    ∀ (is : List ℤ) (arr : List (Option ℚ)),
      (∀ i ∈ is, pad ≤ i ∧ i < (arr.length : ℤ)) →
      (∃ i ∈ is, windowStep profile ct pad i = .error .indexFail) →
      aurocFold profile ct pad is arr = .error .indexFail := by
  intro is
  induction is with
  | nil =>
    intro arr _ hex
    obtain ⟨i, hi, _⟩ := hex
    exact absurd hi (List.not_mem_nil _)
  | cons i rest ih =>
    intro arr hall hex
    cases hw : windowStep profile ct pad i with
    | error e =>
      simp only [aurocFold, hw]
      rw [windowStep_error_eq hw]
    | ok r =>
      obtain ⟨i', hi', herr⟩ := hex
      have hi'rest : i' ∈ rest := by
        rcases List.mem_cons.mp hi' with h1 | h2
        · rw [h1, hw] at herr
          exact Except.noConfusion herr
        · exact h2
      cases r with
      | none =>
        simp only [aurocFold, hw]
        exact ih arr (fun x hx => hall x (List.mem_cons_of_mem _ hx))
          ⟨i', hi'rest, herr⟩
      | some v =>
        obtain ⟨hb1, hb2⟩ := hall i (List.mem_cons_self _ _)
        have hset := pySet_ok (v := some v) (le_trans hpad hb1) hb2
        simp only [aurocFold, hw, hset]
        refine ih (arr.set i.toNat (some v)) ?_ ⟨i', hi'rest, herr⟩
        intro x hx
        obtain ⟨c1, c2⟩ := hall x (List.mem_cons_of_mem _ hx)
        exact ⟨c1, by rwa [List.length_set]⟩

theorem pySet_neg_one {α : Type} {xs : List α} (h : 1 ≤ xs.length) (v : α) :
    pySet xs (-1) v = .ok (xs.set (xs.length - 1) v) := by
  simp only [pySet]
  rw [if_pos (by norm_num : (-1:ℤ) < 0), if_pos (by omega)]
  have hidx : ((-1) + (xs.length : ℤ)).toNat = xs.length - 1 := by omega
  rw [hidx]

/-- C6 counterexample.  The claim says every call with `pad < 0` fails
immediately with an `InvalidParameter` error; on this valid 3-position
sample, `pad = -1` raises no error at all: the evaluation completes and
returns an all-undefined result (and the stored `window` attribute is
`-1`).  No `InvalidParameter` error exists anywhere in the code. -/
theorem claim_C6_cex :
    windowedAUROC sTiny (-1) =
      .ok { sequence := "GGG", window := -1, nt_length := 3
            auroc := [none, none, none], auroc_median := none } := by
  rfl

/-- C6 (amended).  A call with `pad = -1` is not validated and raises no
error: for every sample with both keys and equal-length arrays, the
evaluation completes; every window slice `[i+1, i)` for `i ≥ 0` is
empty, so every output position except possibly the last (reachable by
Python negative indexing from the extra center `i = -1`) is undefined. -/
theorem claim_C6 (sample : Sample) (pd : ProfileData) (cd : CtData)
    (hp : sample.profile = some pd) (hc : sample.ct = some cd)
    (hlen : cd.ct.length = pd.norm_profile.length) :
    ∃ res, windowedAUROC sample (-1) = .ok res ∧
      ∀ j : ℕ, j + 1 < pd.norm_profile.length →
        res.auroc.getD j none = none := by
  have hrange : intRange (-1) ((pd.norm_profile.length : ℤ) - (-1)) =
      (-1) :: intRange 0 ((pd.norm_profile.length : ℤ) - (-1)) :=
    intRange_cons (by omega)
  have hcl : (pySlice cd.ct ((-1:ℤ) - (-1)) ((-1:ℤ) + (-1) + 1)).length =
      (pySlice pd.norm_profile ((-1:ℤ) - (-1)) ((-1:ℤ) + (-1) + 1)).length := by
    rw [pySlice_length_general, pySlice_length_general, hlen]
  have hw : windowStep pd.norm_profile cd.ct (-1) (-1) =
      .ok (stepVal pd.norm_profile cd.ct (-1) (-1)) := windowStep_ok_len hcl
  have hnoop : ∀ arr, aurocFold pd.norm_profile cd.ct (-1)
      (intRange 0 ((pd.norm_profile.length : ℤ) - (-1))) arr = .ok arr :=
    fun arr => aurocFold_noop _ _ _ _ arr
      (fun i hi => windowStep_empty (intRange_mem.mp hi).1)
  simp only [windowedAUROC, hp, hc, aurocLoop]
  rw [hrange]
  cases hsv : stepVal pd.norm_profile cd.ct (-1) (-1) with
  | none =>
    have hfold : aurocFold pd.norm_profile cd.ct (-1)
        ((-1) :: intRange 0 ((pd.norm_profile.length : ℤ) - (-1)))
        (List.replicate pd.norm_profile.length none) =
        .ok (List.replicate pd.norm_profile.length none) := by
      simp only [aurocFold, hw, hsv]
      exact hnoop _
    refine ⟨{ sequence := cd.sequence, window := -1 * 2 + 1
              nt_length := cd.length
              auroc := List.replicate pd.norm_profile.length none
              auroc_median :=
                nanmedian (List.replicate pd.norm_profile.length none) },
      ?_, ?_⟩
    · simp only [hfold]
    · intro j hj
      exact replicate_getD_none
  | some v =>
    have hN : 10 ≤ pd.norm_profile.length := by
      have hcond : ¬((windowValid pd.norm_profile cd.ct (-1) (-1)).map
            (fun p => p.1 == 0)).count true < 10 := by
        intro hlt
        simp only [stepVal] at hsv
        rw [if_pos (Or.inl hlt)] at hsv
        exact Option.noConfusion hsv
      push_neg at hcond
      have h1 : ((windowValid pd.norm_profile cd.ct (-1) (-1)).map
          (fun p => p.1 == 0)).count true ≤
          (windowValid pd.norm_profile cd.ct (-1) (-1)).length := by
        rw [← List.length_map (windowValid pd.norm_profile cd.ct (-1) (-1))
          (fun p => p.1 == 0)]
        exact List.count_le_length _ _
      have h2 : (windowValid pd.norm_profile cd.ct (-1) (-1)).length ≤
          (pySlice cd.ct ((-1:ℤ) - (-1)) ((-1:ℤ) + (-1) + 1)).length := by
        refine le_trans (List.length_filterMap_le _ _) ?_
        rw [List.length_zip]
        exact min_le_left _ _
      have h3 : (pySlice cd.ct ((-1:ℤ) - (-1)) ((-1:ℤ) + (-1) + 1)).length ≤
          cd.ct.length := by
        rw [pySlice_length_general]
        have := pyBound_le (n := cd.ct.length) (i := (-1:ℤ) + (-1) + 1)
        omega
      omega
    have hset : pySet (List.replicate pd.norm_profile.length (none : Option ℚ))
        (-1) (some v) =
        .ok ((List.replicate pd.norm_profile.length none).set
          (pd.norm_profile.length - 1) (some v)) := by
      rw [pySet_neg_one (by rw [List.length_replicate]; omega)]
      rw [List.length_replicate]
    have hfold : aurocFold pd.norm_profile cd.ct (-1)
        ((-1) :: intRange 0 ((pd.norm_profile.length : ℤ) - (-1)))
        (List.replicate pd.norm_profile.length none) =
        .ok ((List.replicate pd.norm_profile.length none).set
          (pd.norm_profile.length - 1) (some v)) := by
      simp only [aurocFold, hw, hsv, hset]
      exact hnoop _
    refine ⟨{ sequence := cd.sequence, window := -1 * 2 + 1
              nt_length := cd.length
              auroc := (List.replicate pd.norm_profile.length none).set
                (pd.norm_profile.length - 1) (some v)
              auroc_median := nanmedian
                ((List.replicate pd.norm_profile.length none).set
                  (pd.norm_profile.length - 1) (some v)) },
      ?_, ?_⟩
    · simp only [hfold]
    · intro j hj
      have hne : pd.norm_profile.length - 1 ≠ j := by omega
      show ((List.replicate pd.norm_profile.length none).set
        (pd.norm_profile.length - 1) (some v)).getD j none = none
      rw [List.getD_eq_getElem?_getD, List.getElem?_set_ne hne,
        ← List.getD_eq_getElem?_getD, replicate_getD_none]

/-- C7 counterexample.  The claim says a signal/labels length mismatch
always fails with `InvalidParameter`; on this sample with signal length
3 and labels length 5 the evaluation succeeds silently, using only a
prefix of the labels. -/
theorem claim_C7_cex :
    windowedAUROC sMismatch 1 =
      .ok { sequence := "GGGGG", window := 3, nt_length := 5
            auroc := [none, none, none], auroc_median := none } := by
  rfl

/-- C7 (amended).  The constructor performs no length validation and no
`InvalidParameter` error exists.  When the labels array is at least as
long as the signal array, the evaluation completes without any error,
silently using a prefix of the labels.  When the labels array is
shorter and at least one window fits (`2*pad+1 ≤ N`), the evaluation
fails — but with an `IndexError` from numpy boolean-mask indexing, not
`InvalidParameter`. -/
theorem claim_C7 :
    (∀ (sample : Sample) (pd : ProfileData) (cd : CtData) (pad : ℕ),
      sample.profile = some pd → sample.ct = some cd →
      pd.norm_profile.length ≤ cd.ct.length →
      ∃ res, windowedAUROC sample (pad : ℤ) = .ok res)
  ∧ (∀ (sample : Sample) (pd : ProfileData) (cd : CtData) (pad : ℕ),
      sample.profile = some pd → sample.ct = some cd →
      cd.ct.length < pd.norm_profile.length →
      2 * pad + 1 ≤ pd.norm_profile.length →
      windowedAUROC sample (pad : ℤ) = .error .indexFail) := by
  constructor
  · intro sample pd cd pad hp hc hlen
    obtain ⟨arr, h1, _, _, _⟩ := windowedAUROC_spec sample pd cd pad hp hc hlen
    exact ⟨_, h1⟩
  · intro sample pd cd pad hp hc hlen hfit
    have herr : aurocFold pd.norm_profile cd.ct (pad : ℤ)
        (intRange (pad : ℤ) ((pd.norm_profile.length : ℤ) - pad))
        (List.replicate pd.norm_profile.length none) = .error .indexFail := by
      apply aurocFold_error _ _ _ (by omega)
      · intro x hx
        rw [intRange_mem] at hx
        refine ⟨hx.1, ?_⟩
        rw [List.length_replicate]
        omega
      · refine ⟨(pd.norm_profile.length : ℤ) - pad - 1, ?_, ?_⟩
        · rw [intRange_mem]
          omega
        · have hlp : (pySlice pd.norm_profile
              (((pd.norm_profile.length : ℤ) - pad - 1) - pad)
              (((pd.norm_profile.length : ℤ) - pad - 1) + pad + 1)).length =
              ((((pd.norm_profile.length : ℤ) - pad - 1) + pad + 1) -
                (((pd.norm_profile.length : ℤ) - pad - 1) - pad)).toNat :=
            pySlice_length (by omega) (by omega) (by omega)
          have hlc : (pySlice cd.ct
              (((pd.norm_profile.length : ℤ) - pad - 1) - pad)
              (((pd.norm_profile.length : ℤ) - pad - 1) + pad + 1)).length =
              pyBound cd.ct.length
                (((pd.norm_profile.length : ℤ) - pad - 1) + pad + 1) -
              pyBound cd.ct.length
                (((pd.norm_profile.length : ℤ) - pad - 1) - pad) :=
            pySlice_length_general _ _ _
          rw [pyBound_nonneg_eq (by omega), pyBound_nonneg_eq (by omega)] at hlc
          have hne : ((pySlice pd.norm_profile
              (((pd.norm_profile.length : ℤ) - pad - 1) - pad)
              (((pd.norm_profile.length : ℤ) - pad - 1) + pad + 1)).map
                Option.isSome).length ≠
              (pySlice cd.ct
              (((pd.norm_profile.length : ℤ) - pad - 1) - pad)
              (((pd.norm_profile.length : ℤ) - pad - 1) + pad + 1)).length := by
            rw [List.length_map, hlp, hlc]
            omega
          simp only [windowStep, maskSelect_ne_len hne]
    simp only [windowedAUROC, hp, hc, aurocLoop, herr]

/-! ## ROC thresholds: sortedness and membership -/

theorem insertDesc_perm (a : ℚ) (l : List ℚ) :
    List.Perm (insertDesc a l) (a :: l) := by
  induction l with
  | nil => exact List.Perm.refl _
  | cons b bs ih =>
    simp only [insertDesc]
    split
    · exact List.Perm.refl _
    · exact (ih.cons b).trans (List.Perm.swap a b bs)

theorem sortDesc_perm (l : List ℚ) : List.Perm (sortDesc l) l := by
  induction l with
  | nil => exact List.Perm.refl _
  | cons a l ih => exact (insertDesc_perm a (sortDesc l)).trans (ih.cons a)

theorem insertDesc_sorted {a : ℚ} {l : List ℚ} (h : l.Pairwise (· ≥ ·)) :
    (insertDesc a l).Pairwise (· ≥ ·) := by
  induction l with
  | nil => simp [insertDesc]
  | cons b bs ih =>
    rcases List.pairwise_cons.mp h with ⟨hb, hbs⟩
    simp only [insertDesc]
    split
    · rename_i hab
      refine List.pairwise_cons.mpr ⟨?_, h⟩
      intro x hx
      rcases List.mem_cons.mp hx with rfl | hxbs
      · exact hab
      · exact le_trans (hb x hxbs) hab
    · rename_i hab
      refine List.pairwise_cons.mpr ⟨?_, ih hbs⟩
      intro x hx
      rcases List.mem_cons.mp ((insertDesc_perm a bs).mem_iff.mp hx) with rfl | hxbs
      · exact le_of_not_le hab
      · exact hb x hxbs

theorem sortDesc_sorted (l : List ℚ) : (sortDesc l).Pairwise (· ≥ ·) := by
  induction l with
  | nil => simp [sortDesc]
  | cons a l ih => exact insertDesc_sorted ih

theorem dedupAdj_mem {l : List ℚ} {a : ℚ} : a ∈ dedupAdj l ↔ a ∈ l := by
  induction l with
  | nil => simp [dedupAdj]
  | cons b bs ih =>
    cases bs with
    | nil => simp [dedupAdj]
    | cons c cs =>
      simp only [dedupAdj]
      split
      · rename_i heq
        rw [ih, heq]
        simp [List.mem_cons]
      · simp only [List.mem_cons] at ih ⊢
        rw [ih]

theorem dedupAdj_pairwise {l : List ℚ} (h : l.Pairwise (· ≥ ·)) :
    (dedupAdj l).Pairwise (· > ·) := by
  induction l with
  | nil => simp [dedupAdj]
  | cons b bs ih =>
    cases bs with
    | nil => simp [dedupAdj]
    | cons c cs =>
      rcases List.pairwise_cons.mp h with ⟨hb, hcs⟩
      simp only [dedupAdj]
      split
      · exact ih hcs
      · rename_i hne
        refine List.pairwise_cons.mpr ⟨?_, ih hcs⟩
        intro x hx
        have hx' : x ∈ c :: cs := dedupAdj_mem.mp hx
        rcases List.mem_cons.mp hx' with rfl | hxcs
        · exact lt_of_le_of_ne (hb x (List.mem_cons_self _ _))
            (fun hh => hne hh.symm)
        · have h1 : x ≤ c := (List.pairwise_cons.mp hcs).1 x hxcs
          have h2 : c < b := lt_of_le_of_ne
            (hb c (List.mem_cons_self _ _)) (fun hh => hne hh.symm)
          exact lt_of_le_of_lt h1 h2

theorem thresholds_mem {scores : List ℚ} {t : ℚ} :
    t ∈ thresholds scores ↔ t ∈ scores := by
  rw [thresholds, dedupAdj_mem, (sortDesc_perm scores).mem_iff]

theorem thresholds_pairwise (scores : List ℚ) :
    (thresholds scores).Pairwise (· > ·) :=
  dedupAdj_pairwise (sortDesc_sorted scores)

theorem dedupAdj_const {l : List ℚ} {c : ℚ} (h : ∀ x ∈ l, x = c)
    (hne : l ≠ []) : dedupAdj l = [c] := by
  induction l with
  | nil => exact absurd rfl hne
  | cons b bs ih =>
    cases bs with
    | nil => simp [dedupAdj, h b (List.mem_cons_self _ _)]
    | cons d ds =>
      simp only [dedupAdj]
      rw [if_pos (by rw [h b (List.mem_cons_self _ _),
        h d (List.mem_cons_of_mem _ (List.mem_cons_self _ _))])]
      exact ih (fun x hx => h x (List.mem_cons_of_mem _ hx)) (List.cons_ne_nil _ _)

theorem thresholds_const {scores : List ℚ} {c : ℚ} (h : ∀ x ∈ scores, x = c)
    (hne : scores ≠ []) : thresholds scores = [c] := by
  rw [thresholds]
  apply dedupAdj_const
  · intro x hx
    exact h x ((sortDesc_perm scores).mem_iff.mp hx)
  · intro hh
    have := (sortDesc_perm scores).length_eq
    rw [hh] at this
    exact hne (List.length_eq_zero.mp this.symm)

/-! ## The trapezoid telescopes along flat steps -/

theorem trapzAux_flat (ps : List (ℚ × ℚ)) : ∀ p : ℚ × ℚ,
    List.Chain' flatStep (p :: ps) →
    trapzAux (p :: ps) = (ps.getLastD p).1 - p.1 := by
  induction ps with
  | nil =>
    intro p _
    simp [trapzAux]
  | cons q rest ih =>
    intro p hch
    rw [List.chain'_cons] at hch
    have hrec := ih q hch.2
    show (q.1 - p.1) * (p.2 + q.2) / 2 + trapzAux (q :: rest)
      = ((q :: rest).getLastD p).1 - p.1
    rw [List.getLastD_cons, hrec]
    rcases hch.1 with heq | ⟨h1, h2⟩
    · rw [← heq]
      ring
    · rw [h1, h2]
      ring

theorem getLastD_map (f : ℚ → ℚ × ℚ) (l : List ℚ) : ∀ a : ℚ,
    (l.map f).getLastD (f a) = f (l.getLastD a) := by
  induction l with
  | nil => intro a; rfl
  | cons b bs ih =>
    intro a
    rw [List.map_cons, List.getLastD_cons, List.getLastD_cons, ih b]

theorem getLastD_mem_cons (l : List ℚ) : ∀ a : ℚ, l.getLastD a ∈ a :: l := by
  induction l with
  | nil => intro a; exact List.mem_cons_self _ _
  | cons b bs ih =>
    intro a
    rw [List.getLastD_cons]
    exact List.mem_cons_of_mem _ (ih b)

theorem pairwise_gt_getLastD_le (l : List ℚ) : ∀ a : ℚ,
    (a :: l).Pairwise (· > ·) → ∀ x ∈ a :: l, l.getLastD a ≤ x := by
  induction l with
  | nil =>
    intro a _ x hx
    rcases List.mem_cons.mp hx with rfl | hx'
    · exact le_rfl
    · exact absurd hx' (List.not_mem_nil _)
  | cons b bs ih =>
    intro a h x hx
    rcases List.pairwise_cons.mp h with ⟨ha, hbl⟩
    rw [List.getLastD_cons]
    rcases List.mem_cons.mp hx with rfl | hx'
    · exact le_of_lt (lt_of_le_of_lt
        (ih b hbl b (List.mem_cons_self _ _)) (ha b (List.mem_cons_self _ _)))
    · exact ih b hbl x hx'

theorem chain'_all_le (m : ℚ) : ∀ l : List ℚ, l.Pairwise (· > ·) →
    (∀ x ∈ l, x ≤ m) →
    l.Chain' (fun a b => b < a ∧ (m ≤ b ∨ a ≤ m)) := by
  intro l
  induction l with
  | nil => intro _ _; exact List.chain'_nil
  | cons a l ih =>
    intro h hall
    cases l with
    | nil => simp
    | cons b bs =>
      rcases List.pairwise_cons.mp h with ⟨ha, hbl⟩
      rw [List.chain'_cons]
      exact ⟨⟨ha b (List.mem_cons_self _ _),
        Or.inr (hall a (List.mem_cons_self _ _))⟩,
        ih hbl (fun x hx => hall x (List.mem_cons_of_mem _ hx))⟩

theorem chain'_sorted_mem (m : ℚ) : ∀ l : List ℚ, m ∈ l →
    l.Pairwise (· > ·) →
    l.Chain' (fun a b => b < a ∧ (m ≤ b ∨ a ≤ m)) := by
  intro l
  induction l with
  | nil => intro hm _; exact absurd hm (List.not_mem_nil _)
  | cons a l ih =>
    intro hm h
    cases l with
    | nil => simp
    | cons b bs =>
      rcases List.pairwise_cons.mp h with ⟨ha, hbl⟩
      rw [List.chain'_cons]
      constructor
      · refine ⟨ha b (List.mem_cons_self _ _), ?_⟩
        rcases List.mem_cons.mp hm with rfl | hm'
        · exact Or.inr le_rfl
        · rcases List.mem_cons.mp hm' with rfl | hm''
          · exact Or.inl le_rfl
          · exact Or.inl (le_of_lt ((List.pairwise_cons.mp hbl).1 m hm''))
      · rcases List.mem_cons.mp hm with rfl | hm'
        · exact chain'_all_le m _ hbl (fun x hx => le_of_lt (ha x hx))
        · exact ih hm' hbl

/-! ## Counting positives and negatives at a threshold -/

theorem countP_fst_zip {α : Type} (q : Bool → Bool) :
    ∀ (y : List Bool) (scores : List α), y.length = scores.length →
    (y.zip scores).countP (fun p => q p.1) = y.countP q := by
  intro y
  induction y with
  | nil => intro scores _; rfl
  | cons b bs ih =>
    intro scores hlen
    cases scores with
    | nil => simp at hlen
    | cons s ss =>
      simp only [List.length_cons, Nat.succ_inj] at hlen
      simp only [List.zip_cons_cons, List.countP_cons, ih ss hlen]

theorem count_true_eq_countP (y : List Bool) :
    y.count true = y.countP (fun b => b) := by
  rw [List.count_eq_countP]
  apply List.countP_congr
  intro b _
  cases b <;> simp

theorem count_false_eq_countP (y : List Bool) :
    y.count false = y.countP (fun b => !b) := by
  rw [List.count_eq_countP]
  apply List.countP_congr
  intro b _
  cases b <;> simp

theorem tpCount_eq_count {y : List Bool} {scores : List ℚ} {t : ℚ}
    (hlen : y.length = scores.length)
    (h : ∀ p ∈ y.zip scores, p.1 = true → t ≤ p.2) :
    tpCount y scores t = y.count true := by
  rw [tpCount, ← List.countP_eq_length_filter]
  rw [List.countP_congr (q := fun p => p.1)
    (fun p hp => by
      cases hb : p.1
      · simp [hb]
      · simp [hb, h p hp hb])]
  rw [countP_fst_zip (fun b => b) y scores hlen, count_true_eq_countP]

theorem fpCount_eq_zero {y : List Bool} {scores : List ℚ} {t : ℚ}
    (h : ∀ q ∈ y.zip scores, q.1 = false → q.2 < t) :
    fpCount y scores t = 0 := by
  rw [fpCount, ← List.countP_eq_length_filter]
  apply List.countP_eq_zero.mpr
  intro p hp
  cases hb : p.1
  · simp [hb, not_le.mpr (h p hp hb)]
  · simp [hb]

theorem fpCount_eq_count {y : List Bool} {scores : List ℚ} {t : ℚ}
    (hlen : y.length = scores.length)
    (h : ∀ q ∈ y.zip scores, q.1 = false → t ≤ q.2) :
    fpCount y scores t = y.count false := by
  rw [fpCount, ← List.countP_eq_length_filter]
  rw [List.countP_congr (q := fun p => !p.1)
    (fun p hp => by
      cases hb : p.1
      · simp [hb, h p hp hb]
      · simp [hb])]
  rw [countP_fst_zip (fun b => !b) y scores hlen, count_false_eq_countP]

theorem exists_min_list : ∀ l : List ℚ, l ≠ [] → ∃ m ∈ l, ∀ x ∈ l, m ≤ x := by
  intro l
  induction l with
  | nil => intro h; exact absurd rfl h
  | cons a l ih =>
    intro _
    cases l with
    | nil =>
      refine ⟨a, List.mem_cons_self _ _, ?_⟩
      intro x hx
      rcases List.mem_cons.mp hx with rfl | hx'
      · exact le_rfl
      · exact absurd hx' (List.not_mem_nil _)
    | cons b bs =>
      obtain ⟨m, hm, hmin⟩ := ih (List.cons_ne_nil _ _)
      rcases le_total a m with hc | hc
      · refine ⟨a, List.mem_cons_self _ _, ?_⟩
        intro x hx
        rcases List.mem_cons.mp hx with rfl | hx'
        · exact le_rfl
        · exact le_trans hc (hmin x hx')
      · refine ⟨m, List.mem_cons_of_mem _ hm, ?_⟩
        intro x hx
        rcases List.mem_cons.mp hx with rfl | hx'
        · exact hc
        · exact hmin x hx'

/-! ## AUC under perfect separation, and under complete ties -/

theorem auc_sep (y : List Bool) (scores : List ℚ)
    (hlen : y.length = scores.length)
    (hP : 0 < y.count true) (hF : 0 < y.count false)
    (hsep : ∀ p ∈ y.zip scores, p.1 = true →
      ∀ q ∈ y.zip scores, q.1 = false → q.2 < p.2) :
    auc (roc_curve y scores).1 (roc_curve y scores).2 = 1 := by
  have hposne : (((y.zip scores).filter (fun p => p.1)).map Prod.snd) ≠ [] := by
    intro hh
    have hl : (((y.zip scores).filter (fun p => p.1)).map Prod.snd).length = 0 := by
      rw [hh]
      rfl
    rw [List.length_map, ← List.countP_eq_length_filter,
      countP_fst_zip (fun b => b) y scores hlen, ← count_true_eq_countP] at hl
    omega
  obtain ⟨m, hmS, hmin⟩ := exists_min_list _ hposne
  obtain ⟨pm, hpmF, hpm2⟩ := List.mem_map.mp hmS
  have hpm := List.mem_filter.mp hpmF
  have hpm1 : pm.1 = true := by simpa using hpm.2
  have hm_scores : m ∈ scores := by
    rw [← hpm2]
    exact (List.of_mem_zip hpm.1).2
  have hpos_ge : ∀ p ∈ y.zip scores, p.1 = true → m ≤ p.2 := by
    intro p hp hp1
    exact hmin p.2 (List.mem_map.mpr
      ⟨p, List.mem_filter.mpr ⟨hp, by simp [hp1]⟩, rfl⟩)
  have hneg_lt : ∀ q ∈ y.zip scores, q.1 = false → q.2 < m := by
    intro q hq hq1
    rw [← hpm2]
    exact hsep pm hpm.1 hpm1 q hq hq1
  have hx0 : ∀ t : ℚ, m ≤ t →
      ((fpCount y scores t : ℚ) / (y.count false : ℚ)) = 0 := by
    intro t ht
    rw [fpCount_eq_zero (fun q hq hq1 => lt_of_lt_of_le (hneg_lt q hq hq1) ht)]
    simp
  have hy1 : ∀ t : ℚ, t ≤ m →
      ((tpCount y scores t : ℚ) / (y.count true : ℚ)) = 1 := by
    intro t ht
    rw [tpCount_eq_count hlen (fun p hp hp1 => le_trans ht (hpos_ge p hp hp1))]
    exact div_self (Nat.cast_ne_zero.mpr (by omega))
  have hsort := thresholds_pairwise scores
  have htm : m ∈ thresholds scores := thresholds_mem.mpr hm_scores
  simp only [roc_curve, auc]
  rw [List.zip_cons_cons, List.zip_map']
  show trapzAux (((0:ℚ), (0:ℚ)) :: (thresholds scores).map
    (fun t => ((fpCount y scores t : ℚ) / (y.count false : ℚ),
      (tpCount y scores t : ℚ) / (y.count true : ℚ)))) = 1
  cases hc : thresholds scores with
  | nil =>
    rw [hc] at htm
    exact absurd htm (List.not_mem_nil _)
  | cons t₁ tr =>
    rw [hc] at hsort htm
    have hmt₁ : m ≤ t₁ := by
      rcases List.mem_cons.mp htm with rfl | hm'
      · exact le_rfl
      · exact le_of_lt ((List.pairwise_cons.mp hsort).1 m hm')
    have hchain : List.Chain' flatStep (((0:ℚ), (0:ℚ)) :: (t₁ :: tr).map
        (fun t => ((fpCount y scores t : ℚ) / (y.count false : ℚ),
          (tpCount y scores t : ℚ) / (y.count true : ℚ)))) := by
      apply List.chain'_cons'.mpr
      constructor
      · intro b hb
        simp only [List.map_cons, List.head?_cons, Option.mem_def,
          Option.some.injEq] at hb
        rw [← hb]
        left
        show (0:ℚ) = (fpCount y scores t₁ : ℚ) / (y.count false : ℚ)
        rw [hx0 t₁ hmt₁]
      · rw [List.chain'_map]
        apply List.Chain'.imp ?_ (chain'_sorted_mem m _ htm hsort)
        intro a b hab
        rcases hab.2 with hmb | ham
        · left
          show (fpCount y scores a : ℚ) / (y.count false : ℚ) =
            (fpCount y scores b : ℚ) / (y.count false : ℚ)
          rw [hx0 a (le_trans hmb (le_of_lt hab.1)), hx0 b hmb]
        · right
          exact ⟨hy1 a ham, hy1 b (le_of_lt (lt_of_lt_of_le hab.1 ham))⟩
    rw [trapzAux_flat _ _ hchain]
    rw [List.map_cons, List.getLastD_cons, getLastD_map]
    have hlast_le : ∀ x ∈ t₁ :: tr, tr.getLastD t₁ ≤ x :=
      pairwise_gt_getLastD_le tr t₁ hsort
    show ((fpCount y scores (tr.getLastD t₁) : ℚ) / (y.count false : ℚ))
      - 0 = 1
    rw [fpCount_eq_count hlen (fun q hq _ => hlast_le q.2
      (by rw [← hc]; exact thresholds_mem.mpr (List.of_mem_zip hq).2))]
    rw [div_self (Nat.cast_ne_zero.mpr (by omega))]
    ring

theorem auc_const (y : List Bool) (scores : List ℚ) (c : ℚ)
    (hlen : y.length = scores.length)
    (hP : 0 < y.count true) (hF : 0 < y.count false)
    (hconst : ∀ s ∈ scores, s = c) :
    auc (roc_curve y scores).1 (roc_curve y scores).2 = 1/2 := by
  have hsne : scores ≠ [] := by
    intro hh
    rw [hh] at hlen
    rw [List.length_eq_zero.mp hlen] at hP
    simp at hP
  have hthr := thresholds_const hconst hsne
  simp only [roc_curve, auc]
  rw [List.zip_cons_cons, List.zip_map', hthr]
  show trapzAux [((0:ℚ), (0:ℚ)),
    ((fpCount y scores c : ℚ) / (y.count false : ℚ),
      (tpCount y scores c : ℚ) / (y.count true : ℚ))] = 1/2
  rw [tpCount_eq_count hlen
    (fun p hp _ => le_of_eq (hconst p.2 (List.of_mem_zip hp).2).symm)]
  rw [fpCount_eq_count hlen
    (fun q hq _ => le_of_eq (hconst q.2 (List.of_mem_zip hq).2).symm)]
  rw [div_self (Nat.cast_ne_zero.mpr (by omega)),
    div_self (Nat.cast_ne_zero.mpr (by omega))]
  norm_num [trapzAux]

theorem stepVal_pass {profile : Signal} {ct : List ℕ} {pad i : ℤ}
    (h1 : 10 ≤ (windowValid profile ct pad i).countP (fun p => p.1 == 0))
    (h2 : 10 ≤ (windowValid profile ct pad i).countP (fun p => !(p.1 == 0))) :
    stepVal profile ct pad i = some (auc
      (roc_curve ((windowValid profile ct pad i).map (fun p => p.1 == 0))
        ((windowValid profile ct pad i).map (fun p => p.2))).1
      (roc_curve ((windowValid profile ct pad i).map (fun p => p.1 == 0))
        ((windowValid profile ct pad i).map (fun p => p.2))).2) := by
  simp only [stepVal]
  rw [if_neg ?cond]
  case cond =>
    rw [count_true_map_eq, count_false_map_eq]
    omega

/-- C3. The per-window score is the trapezoidal area under the ROC
curve built by sweeping the distinct signal values as thresholds, with
unpaired (base-pair-table entry `0`) as the positive class predicted by
higher signal values; consequently, for an interior window with at
least 10 valid positions of each class, no missing values, and every
unpaired position's signal strictly above every paired position's
signal, the score stored at the center exists and is within `1e-9` of
`1` (it is exactly `1`). -/
theorem claim_C3 (sample : Sample) (pd : ProfileData) (cd : CtData)
    (pad i : ℕ) (hp : sample.profile = some pd) (hc : sample.ct = some cd)
    (hlen : cd.ct.length = pd.norm_profile.length)
    (hi1 : pad ≤ i) (hi2 : i + pad + 1 ≤ pd.norm_profile.length)
    (_hnomiss : ∀ x ∈ pySlice pd.norm_profile ((i : ℤ) - pad)
      ((i : ℤ) + pad + 1), x.isSome = true)
    (hu : 10 ≤ (windowValid pd.norm_profile cd.ct (pad : ℤ) (i : ℤ)).countP
      (fun p => p.1 == 0))
    (hq : 10 ≤ (windowValid pd.norm_profile cd.ct (pad : ℤ) (i : ℤ)).countP
      (fun p => !(p.1 == 0)))
    (hsep : ∀ p ∈ windowValid pd.norm_profile cd.ct (pad : ℤ) (i : ℤ),
      p.1 = 0 → ∀ q ∈ windowValid pd.norm_profile cd.ct (pad : ℤ) (i : ℤ),
      q.1 ≠ 0 → q.2 < p.2) :
    ∃ res s, windowedAUROC sample (pad : ℤ) = .ok res ∧
      res.auroc.getD i none = some s ∧ |s - 1| ≤ 1 / 1000000000 := by
  obtain ⟨arr, h1, _, h3, _⟩ :=
    windowedAUROC_spec sample pd cd pad hp hc hlen.ge
  refine ⟨_, 1, h1, ?_, by norm_num⟩
  show arr.getD i none = some 1
  rw [h3 i hi1 hi2, stepVal_pass hu hq]
  congr 1
  apply auc_sep
  · simp
  · rw [count_true_map_eq]
    omega
  · rw [count_false_map_eq]
    omega
  · rw [List.zip_map']
    intro p' hp' hp'1 q' hq' hq'1
    obtain ⟨pw, hpw, rfl⟩ := List.mem_map.mp hp'
    obtain ⟨qw, hqw, rfl⟩ := List.mem_map.mp hq'
    simp only at hp'1 hq'1 ⊢
    exact hsep pw hpw (by simpa using hp'1) qw hqw (by simpa using hq'1)

/-- C9. For an interior window whose valid signal values are all equal
(ties everywhere) and with at least 10 valid positions of each class,
the score stored at the center equals exactly `1/2`. -/
theorem claim_C9 (sample : Sample) (pd : ProfileData) (cd : CtData)
    (pad i : ℕ) (hp : sample.profile = some pd) (hc : sample.ct = some cd)
    (hlen : cd.ct.length = pd.norm_profile.length)
    (hi1 : pad ≤ i) (hi2 : i + pad + 1 ≤ pd.norm_profile.length)
    (hu : 10 ≤ (windowValid pd.norm_profile cd.ct (pad : ℤ) (i : ℤ)).countP
      (fun p => p.1 == 0))
    (hq : 10 ≤ (windowValid pd.norm_profile cd.ct (pad : ℤ) (i : ℤ)).countP
      (fun p => !(p.1 == 0)))
    (hconst : ∀ p ∈ windowValid pd.norm_profile cd.ct (pad : ℤ) (i : ℤ),
      ∀ q ∈ windowValid pd.norm_profile cd.ct (pad : ℤ) (i : ℤ),
      p.2 = q.2) :
    ∃ res, windowedAUROC sample (pad : ℤ) = .ok res ∧
      res.auroc.getD i none = some (1/2) := by
  obtain ⟨arr, h1, _, h3, _⟩ :=
    windowedAUROC_spec sample pd cd pad hp hc hlen.ge
  refine ⟨_, h1, ?_⟩
  show arr.getD i none = some (1/2)
  rw [h3 i hi1 hi2, stepVal_pass hu hq]
  congr 1
  have hne : windowValid pd.norm_profile cd.ct (pad : ℤ) (i : ℤ) ≠ [] := by
    intro hh
    rw [hh] at hu
    simp at hu
  obtain ⟨p₀, hp₀⟩ : ∃ p, p ∈ windowValid pd.norm_profile cd.ct (pad : ℤ)
      (i : ℤ) := List.exists_mem_of_ne_nil _ hne
  apply auc_const _ _ p₀.2
  · simp
  · rw [count_true_map_eq]
    omega
  · rw [count_false_map_eq]
    omega
  · intro s hs
    obtain ⟨pw, hpw, rfl⟩ := List.mem_map.mp hs
    exact hconst pw hpw p₀ hp₀

/-! ## Witnesses: each hypothesis-bearing claim applied at a concrete input -/

theorem claim_C1_witness :
    ∃ res, windowedAUROC sC1w 10 = .ok res ∧
      res.auroc.getD 10 none = none := by
  obtain ⟨res, hok, hiff⟩ := claim_C1 sC1w
    ⟨List.replicate 10 (some 2) ++ List.replicate 9 (some 1) ++ [none, none]⟩
    ⟨"x", 21, List.replicate 10 0 ++ List.replicate 11 1⟩ 10 10 rfl rfl
    (by decide) (by decide) (by decide)
  refine ⟨res, hok, Option.not_isSome_iff_eq_none.mp (fun hs => ?_)⟩
  have hcontra := hiff.mp hs
  revert hcontra
  decide

theorem claim_C2_witness :
    ∃ res, windowedAUROC sC2w 10 = .ok res ∧
      (res.auroc.getD 10 none).isSome = true := by
  obtain ⟨res, hok, hiff⟩ := claim_C2 sC2w
    ⟨List.replicate 10 (some 2) ++ [none] ++ List.replicate 10 (some 1)⟩
    ⟨"x", 21, List.replicate 10 0 ++ [0] ++ List.replicate 10 1⟩ 10 10 rfl rfl
    (by decide) (by decide) (by decide)
  exact ⟨res, hok, hiff.mpr (by decide)⟩

theorem claim_C3_witness :
    ∃ res s, windowedAUROC sC3w 10 = .ok res ∧
      res.auroc.getD 10 none = some s ∧ |s - 1| ≤ 1 / 1000000000 :=
  claim_C3 sC3w
    ⟨List.replicate 10 (some 3) ++ List.replicate 11 (some 1)⟩
    ⟨"x", 21, List.replicate 10 0 ++ List.replicate 11 1⟩ 10 10 rfl rfl
    (by decide) (by decide) (by decide) (by decide) (by decide) (by decide)
    (by decide)

theorem claim_C4_witness :
    ∃ res, windowedAUROC sTiny 10 = .ok res ∧
      ∀ j : ℕ, res.auroc.getD j none = none :=
  (claim_C4 sTiny ⟨[some 1, some 2, some 3]⟩ ⟨"GGG", 3, [0, 1, 0]⟩ 10
    rfl rfl).2 (by decide)

theorem claim_C5_witness :
    resTiny.auroc_median = nanmedian resTiny.auroc
  ∧ (∀ arr arr' : List (Option ℚ),
      List.Perm (arr.filterMap id) (arr'.filterMap id) →
      nanmedian arr = nanmedian arr')
  ∧ nanmedian [none, some (3/5 : ℚ), none, some (4/5), some (7/10)]
      = some (7/10)
  ∧ ((∀ x ∈ resTiny.auroc, x = none) → resTiny.auroc_median = none) :=
  claim_C5 sTiny 1 resTiny rfl

theorem claim_C6_witness :
    ∃ res, windowedAUROC sTiny (-1) = .ok res ∧
      ∀ j : ℕ, j + 1 < 3 → res.auroc.getD j none = none :=
  claim_C6 sTiny ⟨[some 1, some 2, some 3]⟩ ⟨"GGG", 3, [0, 1, 0]⟩ rfl rfl
    (by decide)

theorem claim_C7_witness :
    (∃ res, windowedAUROC sMismatch 1 = .ok res)
  ∧ windowedAUROC sShort 1 = .error .indexFail := by
  constructor
  · exact claim_C7.1 sMismatch ⟨[some 1, some 2, some 3]⟩
      ⟨"GGGGG", 5, [0, 1, 0, 1, 0]⟩ 1 rfl rfl (by decide)
  · exact claim_C7.2 sShort ⟨[some 1, some 2, some 3]⟩ ⟨"GG", 2, [0, 1]⟩ 1
      rfl rfl (by decide) (by decide)

theorem claim_C8_witness :
    ∃ res, windowedAUROC sTiny 1 = .ok res ∧
      res.auroc.length = 3 ∧ res.auroc.length = 3 :=
  claim_C8 sTiny ⟨[some 1, some 2, some 3]⟩ ⟨"GGG", 3, [0, 1, 0]⟩ 1 rfl rfl
    (by decide)

theorem claim_C9_witness :
    ∃ res, windowedAUROC sC9w 10 = .ok res ∧
      res.auroc.getD 10 none = some (1/2) :=
  claim_C9 sC9w ⟨List.replicate 21 (some 1)⟩
    ⟨"x", 21, List.replicate 10 0 ++ List.replicate 11 1⟩ 10 10 rfl rfl
    (by decide) (by decide) (by decide) (by decide) (by decide) (by decide)

theorem claim_C10_witness :
    windowedAUROC sNoProfile 7 =
      .error (.assertionFail "Sample missing profile data")
  ∧ windowedAUROC sNoCt 7 =
      .error (.assertionFail "Sample missing ct data") :=
  ⟨(claim_C10 sNoProfile 7).1 rfl, (claim_C10 sNoCt 7).2 ⟨[some 1]⟩ rfl rfl⟩
